/-
Verification of the cloudigrade Run reconciliation data model and the AWS
catalog-maintenance tasks.

Shallow embedding conventions:
* Timestamps are `Nat` (abstract instants; only their order matters).
* `memory` is `Rat` and `vcpu` is `Int`, matching the numeric fields of
  `Run` / `AwsEC2InstanceDefinition` (FloatField / IntegerField); the claims
  only compare these values for equality or nullness, never compute on them.
* Django querysets become Lean lists; per-instance tables become functions
  `InstId → List _` updated with `Function.update`.
-/
import Mathlib

namespace Cloudigrade

/-- Instance, image identifiers (Django primary keys). -/
abbrev InstId := Nat

/-- From `InstanceEvent.TYPE = Choices("power_on", "power_off", "attribute_change")`
(api/models.py line 493). -/
inductive EventType where
  | power_on
  | power_off
  | attribute_change
deriving DecidableEq, Repr

/-- An instance lifecycle event, from `InstanceEvent` (api/models.py lines
490-498): `event_type`, `occurred_at`.  The `attributes` field (hardware
profile identifier) lives on the cloud-specific content object, which is not
part of the base model; the spec's data model says it is present only for
`power_on` and `attribute_change`. Events are carried per instance, so no
`instance_id` field is needed here. -/
structure Event where
  event_type : EventType
  occurred_at : Nat
  attributes : Option String
deriving DecidableEq, Repr

/-- A derived Run, from `Run` (api/models.py lines 538-551): `start_time`,
nullable `end_time`, `instance_type`, nullable `memory` and `vcpu`. -/
structure RunSpec where
  start_time : Nat
  end_time : Option Nat
  instance_type : Option String
  memory : Option Rat
  vcpu : Option Int
deriving DecidableEq, Repr

/-- The Catalog Lookup: profile identifier → (memory, vcpu), `none` when the
identifier is unknown. -/
abbrev Catalog := String → Option (Rat × Int)

/-- The replay state machine's open-run state: `current_profile` (optional)
and `current_start`. -/
structure OpenSt where
  profile : Option String
  start : Nat
deriving DecidableEq, Repr

/-- Emit a Run from an open state, resolving `memory`/`vcpu` through the
Catalog Lookup at emission time; an unknown profile yields `none` fields. -/
def mkRun (look : Catalog) (o : OpenSt) (endt : Option Nat) : RunSpec :=
  { start_time := o.start
    end_time := endt
    instance_type := o.profile
    memory := (o.profile.bind look).map Prod.fst
    vcpu := (o.profile.bind look).map Prod.snd }

/-- Modelled from the spec: the Run Reconciliation Engine's replay state
machine (spec section 4.1); the implementation (`recalculate_runs` /
`api/util.py`) is not in the provided sources.  Consumes events in
chronological order, maintaining the optional open run and the ordered
sequence of completed runs (`pending`):
* closed + `power_on`: open a run at `occurred_at` with the event's profile;
* closed + `power_off`: no-op;
* closed + `attribute_change`: implicit `power_on` if no prior run exists yet
  in the history, otherwise no-op;
* open + `power_on`: no-op;
* open + `power_off`: close the run at `occurred_at`;
* open + `attribute_change` with a different profile: close at `occurred_at`
  and immediately reopen at the same instant with the new profile;
* open + `attribute_change` with the same profile: no-op;
* end of history: an open run is emitted with `end_time = none`. -/
def replayFrom (look : Catalog) : List Event → Option OpenSt → List RunSpec → List RunSpec
  | [], some o, pending => pending ++ [mkRun look o none]
  | [], none, pending => pending
  | e :: rest, none, pending =>
    match e.event_type with
    | .power_on => replayFrom look rest (some ⟨e.attributes, e.occurred_at⟩) pending
    | .power_off => replayFrom look rest none pending
    | .attribute_change =>
      if pending.isEmpty then
        replayFrom look rest (some ⟨e.attributes, e.occurred_at⟩) pending
      else
        replayFrom look rest none pending
  | e :: rest, some o, pending =>
    match e.event_type with
    | .power_on => replayFrom look rest (some o) pending
    | .power_off => replayFrom look rest none (pending ++ [mkRun look o (some e.occurred_at)])
    | .attribute_change =>
      if e.attributes = o.profile then
        replayFrom look rest (some o) pending
      else
        replayFrom look rest (some ⟨e.attributes, e.occurred_at⟩)
          (pending ++ [mkRun look o (some e.occurred_at)])

/-- The sorted view of a history that `Reconcile` replays: ascending
`occurred_at`, ties broken by creation order (insertion sort is stable). -/
def sortedHistory (history : List Event) : List Event :=
  history.insertionSort (fun a b => a.occurred_at ≤ b.occurred_at)

/-- Modelled from the spec: `Reconcile(instanceId)` reads the instance's full
event history ordered ascending by `occurred_at` (ties broken by creation
order, i.e. a stable sort of the stored insertion-ordered log) and replays
it from the empty state. -/
def reconcile (look : Catalog) (history : List Event) : List RunSpec :=
  replayFrom look (sortedHistory history) none []

/-! ### Run-set invariant predicates (spec section 3, section 8) -/

/-- Run `r` ends no later than `r'` starts (in particular `r` is closed). -/
def runLE (r r' : RunSpec) : Prop :=
  ∃ en, r.end_time = some en ∧ en ≤ r'.start_time

/-- A run's closing time is no earlier than its start. -/
def wfRun (r : RunSpec) : Prop :=
  ∀ en, r.end_time = some en → r.start_time ≤ en

/-- Upper bound available for the ends of pending runs: the open run's start
when one is open, otherwise the lower bound `t` on all remaining events. -/
def stBound : Option OpenSt → Nat → Nat
  | some o, _ => o.start
  | none, t => t

/-- Instant `t` lies strictly inside the extent ending at `eo`; a null end is
treated as +infinity. -/
def beforeEnd (t : Nat) (eo : Option Nat) : Prop :=
  match eo with
  | none => True
  | some en => t < en

/-- The half-open intervals of `r` and `r'` (null end = +infinity) intersect. -/
def runsOverlap (r r' : RunSpec) : Prop :=
  beforeEnd r.start_time r'.end_time ∧ beforeEnd r'.start_time r.end_time

/-- The interval boundaries of a run, disregarding enrichment fields. -/
def intervalOf (r : RunSpec) : Nat × Option Nat :=
  (r.start_time, r.end_time)

/-- A run's enrichment is null whenever its profile is unknown to `look`. -/
def enrichOK (look : Catalog) (r : RunSpec) : Prop :=
  ∀ p, r.instance_type = some p → look p = none → r.memory = none ∧ r.vcpu = none

/-! ### Event Store / Run Store state and the operations acting on them -/

/-- Per-instance Event Store (append-only logs in creation order) and the
derived Run Store. -/
structure EngineState where
  events : InstId → List Event
  runs : InstId → List RunSpec

/-- Modelled from the spec: `ReplaceRuns(instanceId, newRunSet)` composed with
the replay — `recalculate_runs` recomputes instance `i`'s Run set from its
full event history and atomically replaces the prior Run set. -/
def reconcileStore (look : Catalog) (s : EngineState) (i : InstId) : EngineState :=
  { s with runs := Function.update s.runs i (reconcile look (s.events i)) }

/-- The power_off event that `CloudAccount._power_off_instances` creates
(api/models.py lines 170-175): `event_type=power_off`, `occurred_at` set to
the supplied power-off time, no attributes. -/
def powerOffEvent (t : Nat) : Event :=
  ⟨EventType.power_off, t, none⟩

/-- From `InstanceEvent.objects.filter(instance=instance).order_by("-occurred_at")
.first()` (api/models.py lines 162-166): the event with the greatest
`occurred_at` (ties resolved deterministically to the earliest-created). -/
def lastEvent (evs : List Event) : Option Event :=
  evs.foldl
    (fun acc e =>
      match acc with
      | none => some e
      | some a => if a.occurred_at < e.occurred_at then some e else some a)
    none

/-- One iteration of the loop in `CloudAccount._power_off_instances`
(api/models.py lines 161-176): if the instance's last event exists and is not
already a power_off, append a new power_off event at `t` and immediately run
the Reconciliation Engine (`recalculate_runs(event)`) for that instance. -/
def powerOffInstance (look : Catalog) (t : Nat) (s : EngineState) (i : InstId) :
    EngineState :=
  match lastEvent (s.events i) with
  | none => s
  | some le =>
    if le.event_type = EventType.power_off then s
    else
      reconcileStore look
        { s with events := Function.update s.events i (s.events i ++ [powerOffEvent t]) } i

/-- From `CloudAccount._power_off_instances` (api/models.py lines 151-176): iterate
over the account's instances, powering each off. -/
def powerOffInstances (look : Catalog) (t : Nat) (s : EngineState) (insts : List InstId) :
    EngineState :=
  insts.foldl (powerOffInstance look t) s

/-- Cascading deletion of an instance as seen by the Event/Run stores:
`InstanceEvent.instance` and `Run.instance` both declare
`on_delete=models.CASCADE` (api/models.py lines 494-496, 546-548), so
the instance's events and runs are removed with it. -/
def deleteInstanceState (i : InstId) (s : EngineState) : EngineState :=
  { events := Function.update s.events i [], runs := Function.update s.runs i [] }

/-- The operations of the embedded system that touch the Event Store. -/
inductive Op where
  | powerOff (look : Catalog) (t : Nat) (insts : List InstId)
  | runReconcile (look : Catalog) (i : InstId)
  | deleteInst (i : InstId)

def applyOp : Op → EngineState → EngineState
  | .powerOff look t insts, s => powerOffInstances look t s insts
  | .runReconcile look i, s => reconcileStore look s i
  | .deleteInst i, s => deleteInstanceState i s

/-- Modelled from the spec: the data-model constraint that `attributes` (the
hardware-profile identifier, held on the cloud-specific content object, which
is not among the provided sources) is present only for `power_on` and
`attribute_change` events. -/
def eventWF (e : Event) : Prop :=
  e.attributes ≠ none →
    e.event_type = EventType.power_on ∨ e.event_type = EventType.attribute_change

/-! ### Instance deletion and the machine-image post-delete hook -/

/-- A row of the `Instance` table: primary key and nullable `machine_image`
foreign key (api/models.py lines 398-406). -/
structure Inst where
  instId : InstId
  machine_image : Option Nat
deriving DecidableEq, Repr

/-- Instance table, per-instance event logs, and the machine-image table. -/
structure AppState where
  instances : List Inst
  events : InstId → List Event
  images : List Nat

/-- Deleting an instance (api/models.py): the row is removed; the FK cascade
on `InstanceEvent.instance` deletes its events; then
`instance_post_delete_callback` (lines 457-487) deletes the machine image
only when no other instance still references it
(`Instance.objects.filter(machine_image=...).exclude(id=instance.id).exists()`). -/
def deleteInstance (i : InstId) (s : AppState) : AppState :=
  match s.instances.find? (fun x => x.instId == i) with
  | none => s
  | some inst =>
    let remaining := s.instances.filter (fun x => x.instId != i)
    let events' := Function.update s.events i []
    let images' :=
      match inst.machine_image with
      | none => s.images
      | some m =>
        if remaining.any (fun x => x.machine_image == some m) then s.images
        else s.images.filter (fun im => im != m)
    ⟨remaining, events', images'⟩

/-! ### AWS EC2 instance type catalog maintenance
(api/clouds/aws/tasks/maintenance.py) -/

/-- The `AwsEC2InstanceDefinition` table: rows keyed by unique instance type
name with `memory` and `vcpu` columns. -/
abbrev DefStore := List (String × Rat × Int)

def lookupDef (store : DefStore) (name : String) : Option (Rat × Int) :=
  (store.find? (fun p => p.1 == name)).map (fun p => p.2)

/-- From `AwsEC2InstanceDefinition.objects.get_or_create(instance_type=name,
defaults={...})` (maintenance.py lines 106-109): keep the existing row if the
name is present, otherwise create one with the given defaults. -/
def getOrCreate (store : DefStore) (name : String) (mem : Rat) (vc : Int) : DefStore :=
  if (store.find? (fun p => p.1 == name)).isSome then store
  else store ++ [(name, mem, vc)]

/-- From `_save_ec2_instance_type_definitions` (maintenance.py lines 104-127): save
each fetched definition with `get_or_create`; `fails` is the oracle for
`get_or_create` raising `IntegrityError`, which is logged and re-raised. The
error value carries the failing name and the rows as built so far (the
uncommitted partial progress). -/
def saveDefsE (fails : String → Bool) :
    List (String × Rat × Int) → DefStore → Except (String × DefStore) DefStore
  | [], store => .ok store
  | d :: rest, store =>
    if fails d.1 then .error (d.1, store)
    else saveDefsE fails rest (getOrCreate store d.1 d.2.1 d.2.2)

/-- From `repopulate_ec2_instance_mapping` (maintenance.py lines 15-33): run the
save inside `transaction.atomic()`; on an exception the transaction rolls
back (the store is left as it was) and the exception is re-raised (the
second component reports it). -/
def repopulateStore (fails : String → Bool) (defs : List (String × Rat × Int))
    (store : DefStore) : DefStore × Option String :=
  match saveDefsE fails defs store with
  | .ok store' => (store', none)
  | .error (e, _) => (store, some e)

/-! ### Fetching EC2 instance type definitions from the pricing pages -/

/-- Python exception classes that can escape the per-entry parse. -/
inductive PyErr where
  | valueError
  | keyError
  | typeError
deriving DecidableEq, Repr

/-- A pricing page entry's `product.attributes` dict. -/
structure Entry where
  attrs : List (String × String)
deriving DecidableEq, Repr

def lookupAttr (l : List (String × String)) (k : String) : Option String :=
  (l.find? (fun p => p.1 == k)).map (fun p => p.2)

/-- Python's `s.replace(",", "")` for the one-character pattern: drop every
comma. -/
def removeCommas (s : String) : String :=
  ⟨s.data.filter (fun c => c != ',')⟩

/-- The body of the fetch loop in `_fetch_ec2_instance_type_definitions`
(maintenance.py lines 61-84), for one entry, parameterised by Python's
`float`/`int` string parsers (`none` models a `ValueError`):
* `memory`: `instance_attr.get("memory", 0)[:-4].replace(",", "")` then
  `float(...)` — a missing attribute slices the int default `0`, a
  `TypeError`, which `except ValueError` does not catch;
* `vcpu`: `int(instance_attr.get("vcpu", 0))`;
* success stores under `instance_attr["instanceType"]` (`KeyError` when
  absent);
* a `ValueError` is caught, and the handler logs using
  `instance_attr["instanceType"]` — raising `KeyError` itself when that key
  is absent — then the entry is skipped (`.ok none`). -/
def parseEntry (pf : String → Option Rat) (pint : String → Option Int) (en : Entry) :
    Except PyErr (Option (String × Rat × Int)) :=
  match lookupAttr en.attrs "memory" with
  | none => .error .typeError
  | some ms =>
    match pf (removeCommas (ms.dropRight 4)) with
    | none =>
      match lookupAttr en.attrs "instanceType" with
      | none => .error .keyError
      | some _ => .ok none
    | some mem =>
      match
        (match lookupAttr en.attrs "vcpu" with
         | none => some (0 : Int)
         | some vs => pint vs) with
      | none =>
        match lookupAttr en.attrs "instanceType" with
        | none => .error .keyError
        | some _ => .ok none
      | some vc =>
        match lookupAttr en.attrs "instanceType" with
        | none => .error .keyError
        | some it => .ok (some (it, mem, vc))

/-- Python dict assignment `instances[k] = v`: update in place when the key
exists, else append. -/
def dictInsert (d : List (String × Rat × Int)) (k : String) (m : Rat) (v : Int) :
    List (String × Rat × Int) :=
  if (d.find? (fun p => p.1 == k)).isSome then
    d.map (fun p => if p.1 == k then (k, m, v) else p)
  else d ++ [(k, m, v)]

/-- The fetch loop of `_fetch_ec2_instance_type_definitions` over the
flattened page entries: an uncaught exception aborts the whole fetch. -/
def fetchLoop (pf : String → Option Rat) (pint : String → Option Int) :
    List Entry → List (String × Rat × Int) → Except PyErr (List (String × Rat × Int))
  | [], acc => .ok acc
  | en :: rest, acc =>
    match parseEntry pf pint en with
    | .error err => .error err
    | .ok none => fetchLoop pf pint rest acc
    | .ok (some (k, m, v)) => fetchLoop pf pint rest (dictInsert acc k m v)

/-- Total parse-or-skip model of the fetch loop: the behaviour the fetch
exhibits when no entry's failure escapes the handler. -/
def fetchGood (pf : String → Option Rat) (pint : String → Option Int) :
    List Entry → List (String × Rat × Int) → List (String × Rat × Int)
  | [], acc => acc
  | en :: rest, acc =>
    match parseEntry pf pint en with
    | .ok (some (k, m, v)) => fetchGood pf pint rest (dictInsert acc k m v)
    | _ => fetchGood pf pint rest acc

/-! ### Concrete fixtures used by witnesses and counterexamples -/

/-- Catalog that knows no profile identifier. -/
def lookNone : Catalog := fun _ => none

/-- Catalog that maps every profile identifier to (8, 2). -/
def lookAll : Catalog := fun _ => some (8, 2)

def evOn : Event := ⟨EventType.power_on, 1, some "m5.large"⟩

def engine0 : EngineState :=
  ⟨fun j => if j = 0 then [evOn] else [], fun _ => []⟩

def c7Shared : AppState :=
  ⟨[⟨1, some 7⟩, ⟨2, some 7⟩], fun j => if j = 1 then [evOn] else [], [7]⟩

def c7Sole : AppState :=
  ⟨[⟨1, some 7⟩], fun j => if j = 1 then [evOn] else [], [7]⟩

/-- A parser oracle under which no string parses as a float. -/
def pfNone : String → Option Rat := fun _ => none

/-- A parser oracle under which every string parses as the integer 2. -/
def pintTwo : String → Option Int := fun _ => some 2

/-- A pricing entry whose memory value fails to parse and which has no
`instanceType` attribute. -/
def entryBad : Entry := ⟨[("memory", "abc GiB")]⟩

/-- A well-formed pricing entry. -/
def entryGood : Entry :=
  ⟨[("memory", "1,952.00 GiB"), ("vcpu", "2"), ("instanceType", "r5.large")]⟩

/-- A parser oracle that parses "1952.00" only. -/
def pfR5 : String → Option Rat := fun s => if s = "1952.00" then some 1952 else none

/-- An `IntegrityError` oracle under which no save fails. -/
def failsNone : String → Bool := fun _ => false

/-- An `IntegrityError` oracle under which saving "t2.micro" fails. -/
def failsT2 : String → Bool := fun s => s == "t2.micro"

/-- A definition store already holding r5.large with memory 24, vcpu 1. -/
def store0 : DefStore := [("r5.large", 24, 1)]

/-- Fetched definitions: a conflicting r5.large and a fresh t2.micro. -/
def defs0 : List (String × Rat × Int) := [("r5.large", 999, 9), ("t2.micro", 1, 1)]

example :
    reconcile (fun _ => none)
      [⟨.power_on, 0, some "m5.large"⟩, ⟨.power_off, 1, none⟩] =
      [⟨0, some 1, some "m5.large", none, none⟩] := by decide

example :
    reconcile (fun _ => some (8, 2))
      [⟨.power_on, 0, some "m5.large"⟩, ⟨.attribute_change, 2, some "m5.xlarge"⟩,
       ⟨.power_off, 3, none⟩] =
      [⟨0, some 2, some "m5.large", some 8, some 2⟩,
       ⟨2, some 3, some "m5.xlarge", some 8, some 2⟩] := by decide

example :
    reconcile (fun _ => none) [⟨.power_off, 3, none⟩, ⟨.power_on, 0, some "a"⟩] =
      [⟨0, some 3, some "a", none, none⟩] := by decide

theorem chain'_append_one {α : Type} {R : α → α → Prop} {l : List α} {a : α}
    (h : l.Chain' R) (h2 : ∀ x ∈ l, R x a) : (l ++ [a]).Chain' R := by
  rw [List.chain'_append]
  refine ⟨h, List.chain'_singleton a, ?_⟩
  intro x hx y hy
  simp only [List.head?_cons, Option.mem_def, Option.some.injEq] at hy
  subst hy
  rcases List.mem_getLast?_eq_getLast hx with ⟨hne, rfl⟩
  exact h2 _ (List.getLast_mem hne)

theorem mkRun_start (look : Catalog) (o : OpenSt) (endt : Option Nat) :
    (mkRun look o endt).start_time = o.start := rfl

theorem mkRun_end (look : Catalog) (o : OpenSt) (endt : Option Nat) :
    (mkRun look o endt).end_time = endt := rfl

/-- Core invariant of the replay state machine: consuming a chronologically
sorted event suffix from a well-formed intermediate state yields a run list
that is a `runLE`-chain of well-formed runs. -/
theorem replayFrom_chain (look : Catalog) (evs : List Event) :
    ∀ (st : Option OpenSt) (pending : List RunSpec) (t : Nat),
    evs.Pairwise (fun a b => a.occurred_at ≤ b.occurred_at) →
    (∀ e ∈ evs, t ≤ e.occurred_at) →
    pending.Chain' runLE →
    (∀ r ∈ pending, wfRun r) →
    (∀ r ∈ pending, ∃ en, r.end_time = some en ∧ en ≤ stBound st t) →
    (∀ o, st = some o → o.start ≤ t) →
    (replayFrom look evs st pending).Chain' runLE ∧
      ∀ r ∈ replayFrom look evs st pending, wfRun r := by
  induction evs with
  | nil =>
    intro st pending t _ _ hchain hwf hends hopen
    cases st with
    | none => exact ⟨hchain, hwf⟩
    | some o =>
      simp only [replayFrom]
      constructor
      · refine chain'_append_one hchain ?_
        intro x hx
        rcases hends x hx with ⟨en, hen, hle⟩
        exact ⟨en, hen, hle⟩
      · intro r hr
        rcases List.mem_append.1 hr with hr | hr
        · exact hwf r hr
        · simp only [List.mem_singleton] at hr
          subst hr
          intro en hen
          simp [mkRun_end] at hen
  | cons e rest ih =>
    intro st pending t hsorted hlb hchain hwf hends hopen
    have hsrest : rest.Pairwise (fun a b => a.occurred_at ≤ b.occurred_at) :=
      (List.pairwise_cons.1 hsorted).2
    have hlbrest : ∀ e' ∈ rest, e.occurred_at ≤ e'.occurred_at :=
      (List.pairwise_cons.1 hsorted).1
    have hte : t ≤ e.occurred_at := hlb e (List.mem_cons_self e rest)
    cases st with
    | none =>
      have hends' : ∀ r ∈ pending, ∃ en, r.end_time = some en ∧ en ≤ e.occurred_at := by
        intro r hr
        rcases hends r hr with ⟨en, hen, hle⟩
        exact ⟨en, hen, le_trans hle hte⟩
      cases he : e.event_type with
      | power_on =>
        simp only [replayFrom, he]
        exact ih (some ⟨e.attributes, e.occurred_at⟩) pending e.occurred_at
          hsrest hlbrest hchain hwf hends' (by intro o ho; cases ho; exact le_refl _)
      | power_off =>
        simp only [replayFrom, he]
        exact ih none pending e.occurred_at hsrest hlbrest hchain hwf hends'
          (by intro o ho; cases ho)
      | attribute_change =>
        simp only [replayFrom, he]
        by_cases hp : pending.isEmpty
        · rw [if_pos hp]
          exact ih (some ⟨e.attributes, e.occurred_at⟩) pending e.occurred_at
            hsrest hlbrest hchain hwf hends' (by intro o ho; cases ho; exact le_refl _)
        · rw [if_neg hp]
          exact ih none pending e.occurred_at hsrest hlbrest hchain hwf hends'
            (by intro o ho; cases ho)
    | some o =>
      have hostart : o.start ≤ t := hopen o rfl
      have hoe : o.start ≤ e.occurred_at := le_trans hostart hte
      have hendsO : ∀ r ∈ pending, ∃ en, r.end_time = some en ∧ en ≤ o.start := hends
      have hchainNew : (pending ++ [mkRun look o (some e.occurred_at)]).Chain' runLE := by
        refine chain'_append_one hchain ?_
        intro x hx
        rcases hendsO x hx with ⟨en, hen, hle⟩
        exact ⟨en, hen, by rw [mkRun_start]; exact hle⟩
      have hwfNew : ∀ r ∈ pending ++ [mkRun look o (some e.occurred_at)], wfRun r := by
        intro r hr
        rcases List.mem_append.1 hr with hr | hr
        · exact hwf r hr
        · simp only [List.mem_singleton] at hr
          subst hr
          intro en hen
          rw [mkRun_end] at hen
          cases hen
          rw [mkRun_start]
          exact hoe
      have hendsNew : ∀ r ∈ pending ++ [mkRun look o (some e.occurred_at)],
          ∃ en, r.end_time = some en ∧ en ≤ e.occurred_at := by
        intro r hr
        rcases List.mem_append.1 hr with hr | hr
        · rcases hendsO r hr with ⟨en, hen, hle⟩
          exact ⟨en, hen, le_trans hle hoe⟩
        · simp only [List.mem_singleton] at hr
          subst hr
          exact ⟨e.occurred_at, mkRun_end look o _, le_refl _⟩
      cases he : e.event_type with
      | power_on =>
        simp only [replayFrom, he]
        exact ih (some o) pending e.occurred_at hsrest hlbrest hchain hwf hends
          (by intro o' ho'; cases ho'; exact hoe)
      | power_off =>
        simp only [replayFrom, he]
        exact ih none (pending ++ [mkRun look o (some e.occurred_at)]) e.occurred_at
          hsrest hlbrest hchainNew hwfNew hendsNew (by intro o' ho'; cases ho')
      | attribute_change =>
        simp only [replayFrom, he]
        by_cases hsame : e.attributes = o.profile
        · rw [if_pos hsame]
          exact ih (some o) pending e.occurred_at hsrest hlbrest hchain hwf hends
            (by intro o' ho'; cases ho'; exact hoe)
        · rw [if_neg hsame]
          exact ih (some ⟨e.attributes, e.occurred_at⟩)
            (pending ++ [mkRun look o (some e.occurred_at)]) e.occurred_at
            hsrest hlbrest hchainNew hwfNew hendsNew
            (by intro o' ho'; cases ho'; exact le_refl _)

theorem chain_runLE_head (a : RunSpec) (l : List RunSpec) :
    (a :: l).Chain' runLE → (∀ r ∈ l, wfRun r) → ∀ b ∈ l, runLE a b := by
  induction l generalizing a with
  | nil =>
    intro _ _ b hb
    cases hb
  | cons c l ih =>
    intro hch hwf b hb
    have hac : runLE a c := (List.chain'_cons.1 hch).1
    have hch' : (c :: l).Chain' runLE := (List.chain'_cons.1 hch).2
    rcases List.mem_cons.1 hb with rfl | hb
    · exact hac
    · have hcb : runLE c b :=
        ih c hch' (fun r hr => hwf r (List.mem_cons_of_mem c hr)) b hb
      rcases hac with ⟨ea, hea, h1⟩
      rcases hcb with ⟨ec, hec, h2⟩
      have hc : c.start_time ≤ ec := hwf c (List.mem_cons_self c l) ec hec
      exact ⟨ea, hea, le_trans h1 (le_trans hc h2)⟩

theorem chain_wf_pairwise (l : List RunSpec) :
    l.Chain' runLE → (∀ r ∈ l, wfRun r) → l.Pairwise runLE := by
  induction l with
  | nil => intro _ _; exact List.Pairwise.nil
  | cons a l ih =>
    intro hch hwf
    refine List.pairwise_cons.2 ⟨?_, ?_⟩
    · exact chain_runLE_head a l hch (fun r hr => hwf r (List.mem_cons_of_mem a hr))
    · exact ih hch.tail (fun r hr => hwf r (List.mem_cons_of_mem a hr))

theorem sortedHistory_pairwise (history : List Event) :
    (sortedHistory history).Pairwise (fun a b => a.occurred_at ≤ b.occurred_at) :=
  @List.sorted_insertionSort Event (fun a b => a.occurred_at ≤ b.occurred_at) _
    ⟨fun a b => Nat.le_total a.occurred_at b.occurred_at⟩
    ⟨fun _ _ _ => Nat.le_trans⟩ history

theorem reconcile_chain (look : Catalog) (history : List Event) :
    (reconcile look history).Chain' runLE ∧
      ∀ r ∈ reconcile look history, wfRun r := by
  rw [reconcile]
  refine replayFrom_chain look (sortedHistory history) none [] 0
    (sortedHistory_pairwise history) (fun e _ => Nat.zero_le _)
    List.chain'_nil ?_ ?_ ?_
  · intro r hr; cases hr
  · intro r hr; cases hr
  · intro o ho; cases ho

theorem runLE_not_overlap {r r' : RunSpec} (h : runLE r r') (hw : wfRun r) :
    r.start_time ≤ r'.start_time ∧ ¬ runsOverlap r r' := by
  rcases h with ⟨en, hen, hle⟩
  constructor
  · exact le_trans (hw en hen) hle
  · intro hov
    rcases hov with ⟨_, h2⟩
    rw [hen] at h2
    exact absurd hle (not_le.2 h2)

/-- C2: for every instance, after any reconciliation pass, the instance's
Runs are pairwise non-overlapping (treating a null `end_time` as +infinity)
and ordered by `start_time`; every Run with `end_time = null` sits at the
last index, so at most one such Run exists and it is chronologically last. -/
theorem claim_C2_run_invariants (look : Catalog) (history : List Event) :
    ((reconcile look history).Pairwise fun r r' =>
        r.start_time ≤ r'.start_time ∧ ¬ runsOverlap r r') ∧
    ∀ (i : Nat) (h : i < (reconcile look history).length),
      ((reconcile look history).get ⟨i, h⟩).end_time = none →
      i = (reconcile look history).length - 1 := by
  obtain ⟨hch, hwf⟩ := reconcile_chain look history
  constructor
  · have hpw := chain_wf_pairwise _ hch hwf
    refine List.Pairwise.imp_of_mem ?_ hpw
    intro r r' hr _ h
    exact runLE_not_overlap h (hwf r hr)
  · intro i h hnone
    by_contra hne
    have hlt : i < (reconcile look history).length - 1 := by omega
    have hrel := (List.chain'_iff_get.1 hch) i hlt
    rcases hrel with ⟨en, hen, _⟩
    rw [hnone] at hen
    exact Option.noConfusion hen

theorem claim_C2_run_invariants_witness :
    (0 : Nat) = (reconcile lookNone [evOn]).length - 1 :=
  (claim_C2_run_invariants lookNone [evOn]).2 0 (by decide) (by decide)

/-- C1: with a fixed event history, reconciling an instance a second time
recomputes the identical Run set and leaves the Run Store unchanged. -/
theorem claim_C1_idempotent (look : Catalog) (s : EngineState) (i : InstId) :
    (reconcileStore look (reconcileStore look s i) i).runs i
        = (reconcileStore look s i).runs i ∧
      reconcileStore look (reconcileStore look s i) i = reconcileStore look s i := by
  have h : reconcileStore look (reconcileStore look s i) i = reconcileStore look s i := by
    cases s with
    | mk ev ru => simp [reconcileStore, Function.update_idem]
  exact ⟨by rw [h], h⟩

theorem intervalOf_mkRun (look : Catalog) (o : OpenSt) (endt : Option Nat) :
    intervalOf (mkRun look o endt) = (o.start, endt) := rfl

theorem map_interval_append (look look' : Catalog) (o : OpenSt) (endt : Option Nat)
    {pending pending' : List RunSpec}
    (hmap : pending.map intervalOf = pending'.map intervalOf) :
    (pending ++ [mkRun look o endt]).map intervalOf
      = (pending' ++ [mkRun look' o endt]).map intervalOf := by
  simp only [List.map_append, hmap, List.map_cons, List.map_nil,
    intervalOf_mkRun]

/-- Run interval boundaries are a pure function of the event history,
independent of the Catalog Lookup used for enrichment. -/
theorem replayFrom_map_interval (look look' : Catalog) (evs : List Event) :
    ∀ (st : Option OpenSt) (pending pending' : List RunSpec),
    pending.map intervalOf = pending'.map intervalOf →
    (replayFrom look evs st pending).map intervalOf
      = (replayFrom look' evs st pending').map intervalOf := by
  induction evs with
  | nil =>
    intro st pending pending' hmap
    cases st with
    | none => simpa [replayFrom] using hmap
    | some o =>
      simp only [replayFrom]
      exact map_interval_append look look' o none hmap
  | cons e rest ih =>
    intro st pending pending' hmap
    cases st with
    | none =>
      cases he : e.event_type with
      | power_on =>
        simp only [replayFrom, he]
        exact ih _ _ _ hmap
      | power_off =>
        simp only [replayFrom, he]
        exact ih _ _ _ hmap
      | attribute_change =>
        simp only [replayFrom, he]
        have hpp : pending.isEmpty = pending'.isEmpty := by
          cases pending <;> cases pending' <;> simp_all
        by_cases hp : pending.isEmpty
        · rw [if_pos hp, if_pos (hpp ▸ hp)]
          exact ih _ _ _ hmap
        · rw [if_neg hp, if_neg (hpp ▸ hp)]
          exact ih _ _ _ hmap
    | some o =>
      cases he : e.event_type with
      | power_on =>
        simp only [replayFrom, he]
        exact ih _ _ _ hmap
      | power_off =>
        simp only [replayFrom, he]
        exact ih _ _ _ (map_interval_append look look' o (some e.occurred_at) hmap)
      | attribute_change =>
        simp only [replayFrom, he]
        by_cases hsame : e.attributes = o.profile
        · rw [if_pos hsame, if_pos hsame]
          exact ih _ _ _ hmap
        · rw [if_neg hsame, if_neg hsame]
          exact ih _ _ _ (map_interval_append look look' o (some e.occurred_at) hmap)

theorem mkRun_enrich (look : Catalog) (o : OpenSt) (endt : Option Nat) :
    enrichOK look (mkRun look o endt) := by
  intro p hp hnone
  simp only [mkRun] at hp
  constructor
  · simp [mkRun, hp, hnone]
  · simp [mkRun, hp, hnone]

/-- Every run the replay emits has null enrichment whenever its profile is
unknown to the catalog in force at emission time. -/
theorem replayFrom_enrich (look : Catalog) (evs : List Event) :
    ∀ (st : Option OpenSt) (pending : List RunSpec),
    (∀ r ∈ pending, enrichOK look r) →
    ∀ r ∈ replayFrom look evs st pending, enrichOK look r := by
  induction evs with
  | nil =>
    intro st pending hpend r hr
    cases st with
    | none => exact hpend r hr
    | some o =>
      simp only [replayFrom] at hr
      rcases List.mem_append.1 hr with hr | hr
      · exact hpend r hr
      · simp only [List.mem_singleton] at hr
        subst hr
        exact mkRun_enrich look o none
  | cons e rest ih =>
    intro st pending hpend
    have hpendApp : ∀ (o : OpenSt),
        ∀ r' ∈ pending ++ [mkRun look o (some e.occurred_at)], enrichOK look r' := by
      intro o r' hr'
      rcases List.mem_append.1 hr' with hr' | hr'
      · exact hpend r' hr'
      · simp only [List.mem_singleton] at hr'
        subst hr'
        exact mkRun_enrich look o _
    cases st with
    | none =>
      cases he : e.event_type with
      | power_on =>
        simp only [replayFrom, he]
        exact ih _ _ hpend
      | power_off =>
        simp only [replayFrom, he]
        exact ih _ _ hpend
      | attribute_change =>
        simp only [replayFrom, he]
        by_cases hp : pending.isEmpty
        · rw [if_pos hp]
          exact ih _ _ hpend
        · rw [if_neg hp]
          exact ih _ _ hpend
    | some o =>
      cases he : e.event_type with
      | power_on =>
        simp only [replayFrom, he]
        exact ih _ _ hpend
      | power_off =>
        simp only [replayFrom, he]
        exact ih _ _ (hpendApp o)
      | attribute_change =>
        simp only [replayFrom, he]
        by_cases hsame : e.attributes = o.profile
        · rw [if_pos hsame]
          exact ih _ _ hpend
        · rw [if_neg hsame]
          exact ih _ _ (hpendApp o)

/-- C3: reconciliation of a history whose profile identifier is unknown to
the Catalog Lookup still emits the Runs with their interval boundaries
intact (boundaries do not depend on the catalog at all) and with null
`memory`/`vcpu`, rather than aborting: `reconcile` is total and its output
intervals agree with those under any other catalog. -/
theorem claim_C3_unknown_profile (look look' : Catalog) (history : List Event) :
    ((reconcile look history).map intervalOf
        = (reconcile look' history).map intervalOf) ∧
    ∀ r ∈ reconcile look history, ∀ p,
      r.instance_type = some p → look p = none →
      r.memory = none ∧ r.vcpu = none := by
  constructor
  · exact replayFrom_map_interval look look' (sortedHistory history) none [] [] rfl
  · intro r hr
    exact replayFrom_enrich look (sortedHistory history) none []
      (fun r' hr' => absurd hr' (List.not_mem_nil r')) r hr

theorem claim_C3_unknown_profile_witness :
    ((reconcile lookNone [evOn]).map intervalOf
        = (reconcile lookAll [evOn]).map intervalOf) ∧
    ((⟨1, none, some "m5.large", none, none⟩ : RunSpec).memory = none ∧
      (⟨1, none, some "m5.large", none, none⟩ : RunSpec).vcpu = none) :=
  ⟨(claim_C3_unknown_profile lookNone lookAll [evOn]).1,
    (claim_C3_unknown_profile lookNone lookAll [evOn]).2
      ⟨1, none, some "m5.large", none, none⟩ (by decide) "m5.large" rfl rfl⟩

/-! ### Power-off on account disable: append then reconcile -/

theorem powerOffInstance_other (look : Catalog) (t : Nat) (s : EngineState)
    (i j : InstId) (hne : j ≠ i) :
    (powerOffInstance look t s i).events j = s.events j ∧
      (powerOffInstance look t s i).runs j = s.runs j := by
  cases hle : lastEvent (s.events i) with
  | none => simp [powerOffInstance, hle]
  | some le =>
    by_cases h : le.event_type = EventType.power_off
    · simp [powerOffInstance, hle, h]
    · constructor
      · simp [powerOffInstance, hle, h, reconcileStore, Function.update_noteq hne]
      · simp [powerOffInstance, hle, h, reconcileStore, Function.update_noteq hne]

theorem powerOffInstance_self (look : Catalog) (t : Nat) (s : EngineState) (i : InstId) :
    ((powerOffInstance look t s i).events i = s.events i ∧
      (powerOffInstance look t s i).runs i = s.runs i) ∨
    ((powerOffInstance look t s i).events i = s.events i ++ [powerOffEvent t] ∧
      (powerOffInstance look t s i).runs i
        = reconcile look ((powerOffInstance look t s i).events i)) := by
  cases hle : lastEvent (s.events i) with
  | none => left; simp [powerOffInstance, hle]
  | some le =>
    by_cases h : le.event_type = EventType.power_off
    · left; simp [powerOffInstance, hle, h]
    · right
      constructor
      · simp [powerOffInstance, hle, h, reconcileStore, Function.update_same]
      · simp [powerOffInstance, hle, h, reconcileStore, Function.update_same]

theorem powerOffInstances_cons (look : Catalog) (t : Nat) (s : EngineState)
    (a : InstId) (rest : List InstId) :
    powerOffInstances look t s (a :: rest)
      = powerOffInstances look t (powerOffInstance look t s a) rest := rfl

theorem powerOffInstances_frame (look : Catalog) (t : Nat) :
    ∀ (insts : List InstId) (s : EngineState) (j : InstId), j ∉ insts →
    (powerOffInstances look t s insts).events j = s.events j ∧
      (powerOffInstances look t s insts).runs j = s.runs j := by
  intro insts
  induction insts with
  | nil => intro s j _; exact ⟨rfl, rfl⟩
  | cons a rest ih =>
    intro s j hj
    have hja : j ≠ a := fun h => hj (h ▸ List.mem_cons_self a rest)
    have h1 := powerOffInstance_other look t s a j hja
    have h2 := ih (powerOffInstance look t s a) j (fun h => hj (List.mem_cons_of_mem a h))
    rw [powerOffInstances_cons]
    exact ⟨h2.1.trans h1.1, h2.2.trans h1.2⟩

/-- C4: each power_off event created by `_power_off_instances` while
disabling a cloud account has the Reconciliation Engine invoked for
its instance before the operation returns: for every one in the batch,
either nothing was appended (and its stores are untouched), or exactly one
power_off event was appended and the returned Run Store holds the
reconciliation of the instance's new event history. -/
theorem claim_C4_reconcile_after_append (look : Catalog) (t : Nat) :
    ∀ (insts : List InstId) (s : EngineState) (i : InstId),
    insts.Nodup → i ∈ insts →
    ((powerOffInstances look t s insts).events i = s.events i ∧
      (powerOffInstances look t s insts).runs i = s.runs i) ∨
    ((powerOffInstances look t s insts).events i = s.events i ++ [powerOffEvent t] ∧
      (powerOffInstances look t s insts).runs i
        = reconcile look ((powerOffInstances look t s insts).events i)) := by
  intro insts
  induction insts with
  | nil => intro s i _ hi; cases hi
  | cons a rest ih =>
    intro s i hnd hi
    rcases List.mem_cons.1 hi with rfl | hi'
    · have hnotin : i ∉ rest := (List.nodup_cons.1 hnd).1
      have hframe := powerOffInstances_frame look t rest (powerOffInstance look t s i) i hnotin
      rw [powerOffInstances_cons]
      rcases powerOffInstance_self look t s i with ⟨he, hr⟩ | ⟨he, hr⟩
      · left
        exact ⟨hframe.1.trans he, hframe.2.trans hr⟩
      · right
        refine ⟨hframe.1.trans he, ?_⟩
        rw [hframe.2, hr, hframe.1]
    · have hia : i ≠ a := fun h => (List.nodup_cons.1 hnd).1 (h ▸ hi')
      have hstep := powerOffInstance_other look t s a i hia
      have hrec := ih (powerOffInstance look t s a) i (List.nodup_cons.1 hnd).2 hi'
      rw [powerOffInstances_cons]
      rcases hrec with ⟨he, hr⟩ | ⟨he, hr⟩
      · left
        exact ⟨he.trans hstep.1, hr.trans hstep.2⟩
      · right
        rw [hstep.1] at he
        exact ⟨he, hr⟩

theorem claim_C4_reconcile_after_append_witness :
    ((powerOffInstances lookNone 5 engine0 [0]).events 0 = engine0.events 0 ∧
      (powerOffInstances lookNone 5 engine0 [0]).runs 0 = engine0.runs 0) ∨
    ((powerOffInstances lookNone 5 engine0 [0]).events 0
        = engine0.events 0 ++ [powerOffEvent 5] ∧
      (powerOffInstances lookNone 5 engine0 [0]).runs 0
        = reconcile lookNone ((powerOffInstances lookNone 5 engine0 [0]).events 0)) :=
  claim_C4_reconcile_after_append lookNone 5 [0] engine0 0 (by decide) (by decide)

theorem powerOffInstances_append (look : Catalog) (t : Nat) :
    ∀ (insts : List InstId) (s : EngineState) (j : InstId),
    ∃ tail, (powerOffInstances look t s insts).events j = s.events j ++ tail ∧
      ∀ e ∈ tail, e = powerOffEvent t := by
  intro insts
  induction insts with
  | nil =>
    intro s j
    exact ⟨[], by simp [powerOffInstances], by simp⟩
  | cons a rest ih =>
    intro s j
    have hstep : ∃ t1, (powerOffInstance look t s a).events j = s.events j ++ t1 ∧
        ∀ e ∈ t1, e = powerOffEvent t := by
      by_cases hja : j = a
      · subst hja
        rcases powerOffInstance_self look t s j with ⟨he, _⟩ | ⟨he, _⟩
        · exact ⟨[], by simp [he], by simp⟩
        · exact ⟨[powerOffEvent t], by simp [he], by simp⟩
      · exact ⟨[], by simp [(powerOffInstance_other look t s a j hja).1], by simp⟩
    rcases hstep with ⟨t1, ht1, ht1wf⟩
    rcases ih (powerOffInstance look t s a) j with ⟨t2, ht2, ht2wf⟩
    refine ⟨t1 ++ t2, ?_, ?_⟩
    · rw [powerOffInstances_cons, ht2, ht1, List.append_assoc]
    · intro e he
      rcases List.mem_append.1 he with h | h
      · exact ht1wf e h
      · exact ht2wf e h

/-- C5: events are immutable. Every operation of the embedded system either
extends an instance's event log at the end, leaving all existing events
untouched, or — only in the case of deleting that very instance — removes
its events wholesale by the FK cascade. No operation rewrites a stored
event. -/
theorem claim_C5_events_immutable (op : Op) (s : EngineState) (j : InstId) :
    (∃ tail, (applyOp op s).events j = s.events j ++ tail) ∨
    (op = Op.deleteInst j ∧ (applyOp op s).events j = []) := by
  cases op with
  | powerOff look t insts =>
    left
    rcases powerOffInstances_append look t insts s j with ⟨tail, h, _⟩
    exact ⟨tail, h⟩
  | runReconcile look i =>
    left
    exact ⟨[], by simp [applyOp, reconcileStore]⟩
  | deleteInst i =>
    by_cases hji : i = j
    · subst hji
      right
      exact ⟨rfl, by simp [applyOp, deleteInstanceState]⟩
    · left
      refine ⟨[], ?_⟩
      simp [applyOp, deleteInstanceState, Function.update_noteq (Ne.symm hji)]

/-- C6: every event's `event_type` is one of the three `InstanceEvent.TYPE`
choices, and the invariant "a hardware-profile `attributes` value is present
only on `power_on` / `attribute_change` events" is preserved by every
operation of the system (the only event the system itself creates is the
attribute-less power_off of `_power_off_instances`). -/
theorem claim_C6_event_types (op : Op) (s : EngineState) :
    (∀ ty : EventType, ty = EventType.power_on ∨ ty = EventType.power_off ∨
        ty = EventType.attribute_change) ∧
    ((∀ i e, e ∈ s.events i → eventWF e) →
      ∀ i e, e ∈ (applyOp op s).events i → eventWF e) := by
  constructor
  · intro ty
    cases ty
    · exact Or.inl rfl
    · exact Or.inr (Or.inl rfl)
    · exact Or.inr (Or.inr rfl)
  · intro hwf i e he
    cases op with
    | powerOff look t insts =>
      simp only [applyOp] at he
      rcases powerOffInstances_append look t insts s i with ⟨tail, heq, htail⟩
      rw [heq] at he
      rcases List.mem_append.1 he with h | h
      · exact hwf i e h
      · have hpo := htail e h
        subst hpo
        intro hne
        exact absurd rfl hne
    | runReconcile look k =>
      exact hwf i e he
    | deleteInst k =>
      by_cases hik : i = k
      · subst hik
        simp [applyOp, deleteInstanceState] at he
      · have hsame : (applyOp (Op.deleteInst k) s).events i = s.events i := by
          simp [applyOp, deleteInstanceState, Function.update_noteq hik]
        rw [hsame] at he
        exact hwf i e he

theorem claim_C6_event_types_witness : eventWF evOn :=
  (claim_C6_event_types (Op.powerOff lookNone 5 [0]) engine0).2
    (fun i e he => by
      by_cases h : i = 0
      · subst h
        have heq : e = evOn := by simpa [engine0] using he
        subst heq
        intro _
        exact Or.inl rfl
      · exfalso
        simp [engine0, h] at he)
    0 evOn (by decide)

/-! ### Instance deletion cascade -/

/-- C7 counterexample: in a state with two instances sharing machine image 7,
deleting instance 1 (whose `machine_image` is 7) cascades away its events but
does NOT delete its machine image — `instance_post_delete_callback` keeps an
image that other instances still use, so "deleting an instance deletes its
machine image" is false as stated. -/
theorem claim_C7_cascade_counterexample :
    (c7Shared.instances.find? (fun x => x.instId == 1)) = some ⟨1, some 7⟩ ∧
    (deleteInstance 1 c7Shared).events 1 = [] ∧
    (deleteInstance 1 c7Shared).images = [7] := by decide

/-- C7 (amended): deleting an existing instance deletes its events via the FK
cascade (and touches no other instance's events), and deletes its machine
image only if no other remaining instance references that image; when
another instance still uses it, the image table is left unchanged. These are
post-deletion hooks outside the Engine. -/
theorem claim_C7_cascade (i : InstId) (s : AppState) (inst : Inst)
    (hfind : s.instances.find? (fun x => x.instId == i) = some inst) :
    (deleteInstance i s).events i = [] ∧
    (∀ j, j ≠ i → (deleteInstance i s).events j = s.events j) ∧
    ∀ m, inst.machine_image = some m →
      ((s.instances.filter (fun x => x.instId != i)).any
          (fun x => x.machine_image == some m) = false →
        m ∉ (deleteInstance i s).images) ∧
      ((s.instances.filter (fun x => x.instId != i)).any
          (fun x => x.machine_image == some m) = true →
        (deleteInstance i s).images = s.images) := by
  refine ⟨?_, ?_, ?_⟩
  · simp [deleteInstance, hfind]
  · intro j hj
    simp [deleteInstance, hfind, Function.update_noteq hj]
  · intro m hm
    constructor
    · intro hnone
      simp only [deleteInstance, hfind, hm, hnone, Bool.false_eq_true, if_false]
      intro hmem
      rcases List.mem_filter.1 hmem with ⟨_, hp⟩
      simp at hp
    · intro hsome
      simp [deleteInstance, hfind, hm, hsome]

theorem claim_C7_cascade_witness :
    (deleteInstance 1 c7Sole).events 1 = [] ∧
      (7 : Nat) ∉ (deleteInstance 1 c7Sole).images :=
  ⟨(claim_C7_cascade 1 c7Sole ⟨1, some 7⟩ (by decide)).1,
    ((claim_C7_cascade 1 c7Sole ⟨1, some 7⟩ (by decide)).2.2 7 rfl).1 (by decide)⟩

/-! ### Catalog maintenance: non-overwriting save and atomic rollback -/

theorem lookupDef_getOrCreate (store : DefStore) (name n : String) (mem : Rat)
    (vc : Int) (mv : Rat × Int) (h : lookupDef store n = some mv) :
    lookupDef (getOrCreate store name mem vc) n = some mv := by
  unfold getOrCreate
  split
  · exact h
  · unfold lookupDef at h ⊢
    cases hf : store.find? (fun p => p.1 == n) with
    | none => rw [hf] at h; cases h
    | some p =>
      rw [hf] at h
      rw [List.find?_append, hf]
      simpa using h

theorem getOrCreate_mem (store : DefStore) (name : String) (mem : Rat) (vc : Int) :
    ∀ entry ∈ getOrCreate store name mem vc,
      entry ∈ store ∨ lookupDef store entry.1 = none := by
  intro entry hmem
  unfold getOrCreate at hmem
  by_cases hs : (store.find? (fun p => p.1 == name)).isSome
  · rw [if_pos hs] at hmem
    exact Or.inl hmem
  · rw [if_neg hs] at hmem
    rcases List.mem_append.1 hmem with h | h
    · exact Or.inl h
    · simp only [List.mem_singleton] at h
      subst h
      right
      unfold lookupDef
      rw [Option.not_isSome_iff_eq_none.1 hs]
      rfl

theorem lookupDef_none_getOrCreate (store : DefStore) (name : String) (mem : Rat)
    (vc : Int) (n : String) (h : lookupDef store n = none) :
    lookupDef (getOrCreate store name mem vc) n = none ∨ n = name := by
  by_cases hn : n = name
  · exact Or.inr hn
  · left
    unfold getOrCreate
    split
    · exact h
    · unfold lookupDef at h ⊢
      cases hf : store.find? (fun p => p.1 == n) with
      | some p => rw [hf] at h; cases h
      | none =>
        rw [List.find?_append, hf]
        simp [Ne.symm hn]

theorem saveDefsE_preserves (fails : String → Bool) :
    ∀ (defs : List (String × Rat × Int)) (store store' : DefStore),
    saveDefsE fails defs store = .ok store' →
    (∀ n mv, lookupDef store n = some mv → lookupDef store' n = some mv) ∧
    (∀ entry ∈ store', entry ∈ store ∨ lookupDef store entry.1 = none) := by
  intro defs
  induction defs with
  | nil =>
    intro store store' h
    cases h
    exact ⟨fun _ _ h => h, fun entry he => Or.inl he⟩
  | cons d rest ih =>
    intro store store' h
    unfold saveDefsE at h
    by_cases hf : fails d.1
    · rw [if_pos hf] at h; cases h
    · rw [if_neg hf] at h
      obtain ⟨hkeep, hmem⟩ := ih (getOrCreate store d.1 d.2.1 d.2.2) store' h
      constructor
      · intro n mv hn
        exact hkeep n mv (lookupDef_getOrCreate store d.1 n d.2.1 d.2.2 mv hn)
      · intro entry he
        rcases hmem entry he with hin | hnone
        · exact getOrCreate_mem store d.1 d.2.1 d.2.2 entry hin
        · right
          by_cases hlk : lookupDef store entry.1 = none
          · exact hlk
          · exfalso
            rcases Option.ne_none_iff_exists'.1 hlk with ⟨mv, hmv⟩
            rw [lookupDef_getOrCreate store d.1 entry.1 d.2.1 d.2.2 mv hmv] at hnone
            cases hnone

/-- C8: the catalog refresh never overwrites an existing definition — an
already-present instance type name keeps its memory/vcpu values through
`repopulate_ec2_instance_mapping`, and every row of the resulting store was
either already present or had a name not previously present (rows are only
created, never replaced). Holds on both the commit and the rollback path. -/
theorem claim_C8_no_overwrite (fails : String → Bool)
    (defs : List (String × Rat × Int)) (store : DefStore) :
    (∀ n mv, lookupDef store n = some mv →
      lookupDef (repopulateStore fails defs store).1 n = some mv) ∧
    (∀ entry ∈ (repopulateStore fails defs store).1,
      entry ∈ store ∨ lookupDef store entry.1 = none) := by
  unfold repopulateStore
  cases hs : saveDefsE fails defs store with
  | ok st' =>
    obtain ⟨h1, h2⟩ := saveDefsE_preserves fails defs store st' hs
    exact ⟨h1, h2⟩
  | error p =>
    cases p
    exact ⟨fun _ _ h => h, fun entry he => Or.inl he⟩

theorem claim_C8_no_overwrite_witness :
    lookupDef (repopulateStore failsNone defs0 store0).1 "r5.large" = some (24, 1) ∧
    (("t2.micro", (1 : Rat), (1 : Int)) ∈ (repopulateStore failsNone defs0 store0).1 ∧
      (("t2.micro", (1 : Rat), (1 : Int)) ∈ store0 ∨ lookupDef store0 "t2.micro" = none)) :=
  ⟨(claim_C8_no_overwrite failsNone defs0 store0).1 "r5.large" (24, 1) (by decide),
    by decide,
    (claim_C8_no_overwrite failsNone defs0 store0).2 ("t2.micro", (1 : Rat), (1 : Int))
      (by decide)⟩

/-- C9: the refresh is atomic on failure — if saving any fetched definition
raises, `repopulate_ec2_instance_mapping` re-raises that error and the
persisted store is the original one: the partial progress carried inside the
error is discarded by the transaction rollback. -/
theorem claim_C9_atomic_rollback (fails : String → Bool)
    (defs : List (String × Rat × Int)) (store : DefStore) (e : String)
    (part : DefStore) (h : saveDefsE fails defs store = .error (e, part)) :
    repopulateStore fails defs store = (store, some e) := by
  unfold repopulateStore
  rw [h]

theorem claim_C9_atomic_rollback_witness :
    saveDefsE failsT2 defs0 [] = .error ("t2.micro", [("r5.large", 999, 9)]) ∧
    repopulateStore failsT2 defs0 [] = ([], some "t2.micro") :=
  ⟨by rfl,
    claim_C9_atomic_rollback failsT2 defs0 [] "t2.micro" [("r5.large", 999, 9)]
      (by rfl)⟩

/-! ### Fetch loop error behaviour -/

theorem parseEntry_no_raise (pf : String → Option Rat) (pint : String → Option Int)
    (en : Entry) (hit : (lookupAttr en.attrs "instanceType").isSome)
    (hmem : (lookupAttr en.attrs "memory").isSome) :
    parseEntry pf pint en = .ok none ∨
      ∃ d, parseEntry pf pint en = .ok (some d) := by
  rcases Option.isSome_iff_exists.1 hmem with ⟨ms, hms⟩
  rcases Option.isSome_iff_exists.1 hit with ⟨it, hits⟩
  cases hpf : pf (removeCommas (ms.dropRight 4)) with
  | none =>
    left
    simp [parseEntry, hms, hits, hpf]
  | some mem =>
    cases hvl : lookupAttr en.attrs "vcpu" with
    | none =>
      right
      exact ⟨(it, mem, 0), by simp [parseEntry, hms, hits, hpf, hvl]⟩
    | some vs =>
      cases hpi : pint vs with
      | none =>
        left
        simp [parseEntry, hms, hits, hpf, hvl, hpi]
      | some vc =>
        right
        exact ⟨(it, mem, vc), by simp [parseEntry, hms, hits, hpf, hvl, hpi]⟩

/-- C10 counterexample: a pricing entry whose memory attribute is present but
unparseable (`ValueError` from `float`) and which lacks an `instanceType`
attribute makes the `except ValueError` handler's own log statement raise
`KeyError`, which escapes the fetch loop; the definitions parsed from the
other (well-formed) entries are lost instead of being returned. -/
theorem claim_C10_skip_bad_entries_counterexample :
    fetchLoop pfR5 pintTwo [entryGood, entryBad] [] = .error PyErr.keyError := by rfl

/-- C10 (amended): for every pricing entry that carries an `instanceType`
attribute and whose memory attribute is present, a memory or vcpu value that
fails to parse is caught, logged and skipped, and the fetch loop returns
exactly the definitions parsed from the remaining entries without raising. -/
theorem claim_C10_skip_bad_entries (pf : String → Option Rat)
    (pint : String → Option Int) :
    ∀ (entries : List Entry) (acc : List (String × Rat × Int)),
    (∀ en ∈ entries, (lookupAttr en.attrs "instanceType").isSome ∧
        (lookupAttr en.attrs "memory").isSome) →
    fetchLoop pf pint entries acc = .ok (fetchGood pf pint entries acc) := by
  intro entries
  induction entries with
  | nil => intro acc _; rfl
  | cons en rest ih =>
    intro acc hall
    obtain ⟨hit, hmem⟩ := hall en (List.mem_cons_self en rest)
    have hrest : ∀ e ∈ rest, (lookupAttr e.attrs "instanceType").isSome ∧
        (lookupAttr e.attrs "memory").isSome :=
      fun e he => hall e (List.mem_cons_of_mem en he)
    rcases parseEntry_no_raise pf pint en hit hmem with hp | ⟨d, hp⟩
    · simp only [fetchLoop, fetchGood, hp]
      exact ih acc hrest
    · rcases d with ⟨k, m, v⟩
      simp only [fetchLoop, fetchGood, hp]
      exact ih (dictInsert acc k m v) hrest

theorem claim_C10_skip_bad_entries_witness :
    fetchLoop pfR5 pintTwo [entryGood] []
        = .ok (fetchGood pfR5 pintTwo [entryGood] []) ∧
    fetchGood pfR5 pintTwo [entryGood] [] = [("r5.large", 1952, 2)] :=
  ⟨claim_C10_skip_bad_entries pfR5 pintTwo [entryGood] [] (by decide), by rfl⟩

end Cloudigrade
